import Mathlib

/-!
# EllipsisLM `modular/local.go`: the development file server

A shallow embedding of `func main()` of `modular/local.go`.  The program is three
statements over Go's `net/http` and `log` packages; the process is modelled as a
`World` (the default multiplexer's registrations, the lines written by the standard
logger, the listen calls made, the ordered trace of these effects and the process
status), and each library call as a function on that state.  What the operating system
decides (whether the port can be bound, whether the accept loop ever returns) is an
input, `Env`.
-/

namespace EllipsisLM

/-- A `http.Dir`: the directory a file server is rooted at. -/
structure Dir where
  root : String
deriving DecidableEq, Repr

/-- The values of Go's `http.Handler` interface that serve a request of this program:
`http.FileServer(root)`, which `main` constructs, and the two handlers the
multiplexer makes itself, `http.RedirectHandler(url, 301)` (given here by the path
the URL names) and `http.NotFoundHandler()`. -/
inductive Handler where
  | fileServer (root : Dir)
  | redirect (path : String)
  | notFound
deriving DecidableEq, Repr

/-- What the operating system answers to `http.ListenAndServe`: the bind fails with an
error; the bind succeeds and the accept loop never returns; the bind succeeds and the
accept loop later returns an error (`ListenAndServe` always returns a non-nil error
when it returns). -/
inductive ListenOutcome where
  | bindFails (err : String)
  | servesForever
  | servesThenFails (err : String)
deriving DecidableEq, Repr

/-- Whether the listening socket was bound. -/
def ListenOutcome.bound : ListenOutcome → Bool
  | .bindFails _ => false
  | .servesForever => true
  | .servesThenFails _ => true

/-- Everything outside the program: command-line arguments, environment variables,
files that could hold configuration, and the operating system's answer to a listen
call on an address. -/
structure Env where
  args : List String
  environ : List (String × String)
  files : String → Option String
  listen : String → ListenOutcome

/-- The process status: still executing `main`; blocked in the accept loop;
terminated with an exit status; stopped by a run-time panic. -/
inductive Status where
  | running
  | serving
  | exited (code : Nat)
  | panicked (msg : String)
deriving DecidableEq, Repr

/-- The observable effects, in the order they happen. -/
inductive Event where
  | handle (pattern : String) (h : Handler)
  | logLine (msg : String)
  | listen (addr : String) (handler : Option Handler)
  | exit (code : Nat)
deriving DecidableEq, Repr

/-- One call of `http.ListenAndServe`: the address, the handler argument (`none` is
Go's `nil`) and the routes of the default multiplexer at that moment. -/
structure ListenCall where
  addr : String
  handler : Option Handler
  routes : List (String × Handler)
deriving DecidableEq, Repr

/-- The process state. `mux` is `http.DefaultServeMux`; `log` holds the message of
every line the standard logger wrote (the date and time prefix is left out). -/
structure World where
  mux : List (String × Handler)
  log : List String
  listens : List ListenCall
  trace : List Event
  status : Status
deriving DecidableEq, Repr

/-- The state at process start. -/
def World.init : World :=
  { mux := [], log := [], listens := [], trace := [], status := .running }

/-- Go's `http.Dir(s)` conversion. -/
def http.Dir (s : String) : Dir := ⟨s⟩

/-- Go's `http.FileServer(root)`. -/
def http.FileServer (root : EllipsisLM.Dir) : Handler := .fileServer root

/-- Go's `http.Handle(pattern, handler)`: registers the handler on the default
multiplexer; panics on an empty pattern or one that is already registered. -/
def http.Handle (pattern : String) (h : Handler) (w : World) : World :=
  if w.status ≠ .running then w
  else if pattern = "" then { w with status := .panicked "http: invalid pattern" }
  else if (w.mux.map Prod.fst).contains pattern then
    { w with status := .panicked "http: multiple registrations" }
  else { w with mux := w.mux ++ [(pattern, h)], trace := w.trace ++ [.handle pattern h] }

/-- Go's `log.Println(msg)`: the standard logger writes one line. -/
def log.Println (msg : String) (w : World) : World :=
  if w.status ≠ .running then w
  else { w with log := w.log ++ [msg], trace := w.trace ++ [.logLine msg] }

/-- Go's `http.ListenAndServe(addr, handler)`: one attempt to bind `addr`, then the
accept loop.  The second component is the error returned, `none` when the call never
returns. -/
def http.ListenAndServe (env : Env) (addr : String) (handler : Option Handler)
    (w : World) : World × Option String :=
  if w.status ≠ .running then (w, none)
  else
    let w1 := { w with listens := w.listens ++ [⟨addr, handler, w.mux⟩],
                       trace := w.trace ++ [.listen addr handler] }
    match env.listen addr with
    | .bindFails err => (w1, some err)
    | .servesForever => ({ w1 with status := .serving }, none)
    | .servesThenFails err => (w1, some err)

/-- Go's `log.Fatal(err)`: `Print` followed by `os.Exit(1)`. -/
def log.Fatal (err : String) (w : World) : World :=
  if w.status ≠ .running then w
  else { w with log := w.log ++ [err],
                trace := w.trace ++ [.logLine err, .exit 1],
                status := .exited 1 }

/-- The announcement of `main`. -/
def announcement : String := "serving on http://localhost:8080"

/-- `func main()` of `modular/local.go`. -/
def main (env : Env) : World :=
  let w := http.Handle "/" (http.FileServer (http.Dir ".")) World.init
  let w := log.Println "serving on http://localhost:8080" w
  match http.ListenAndServe env ":8080" none w with
  | (w, none) => w
  | (w, some err) => log.Fatal err w

/-- A run of the process: `main`, and exit status 0 when `main` returns. -/
def run (env : Env) : World :=
  let w := main env
  if w.status = .running then
    { w with trace := w.trace ++ [.exit 0], status := .exited 0 }
  else w

/-! ## Routing and addresses -/

/-- Go's `ServeMux` lookup of a path in the registered patterns (`mux.match`): an
exact match first, otherwise the longest registered pattern that ends in `/` and is a
prefix of the path. -/
def ServeMux.matchPath (m : List (String × Handler)) (path : String) : Option Handler :=
  match m.find? (fun e => e.1 = path) with
  | some e => some e.2
  | none =>
    (m.foldl
      (fun (best : Option (String × Handler)) e =>
        if e.1.toList.getLast? = some '/' ∧ e.1.toList.isPrefixOf path.toList then
          match best with
          | none => some e
          | some b => if b.1.length < e.1.length then some e else some b
        else best)
      none).map Prod.snd

/-- Splits at the last occurrence of `c`. -/
def splitLast (c : Char) : List Char → Option (List Char × List Char)
  | [] => none
  | x :: xs =>
    match splitLast c xs with
    | some (a, b) => some (x :: a, b)
    | none => if x = c then some ([], xs) else none

/-- Go's `net.SplitHostPort` for an address whose host is not a bracketed IPv6
literal: the port follows the last colon and the host holds no colon. -/
def splitHostPort (hostport : String) : Option (String × String) :=
  match splitLast ':' hostport.toList with
  | none => none
  | some (host, port) =>
    if host.head? = some '[' ∨ ':' ∈ host ∨ '[' ∈ host ∨ ']' ∈ host ∨ '[' ∈ port ∨ ']' ∈ port
    then none
    else some (String.mk host, String.mk port)

/-- The interfaces a TCP listener is bound on. -/
inductive BindScope where
  | allInterfaces
  | host (name : String)
deriving DecidableEq, Repr

/-- Go's `net.Listen`: an empty or unspecified host listens on every address of the
local system. -/
def listenScope (host : String) : BindScope :=
  if host = "" ∨ host = "0.0.0.0" ∨ host = "::" then .allInterfaces else .host host

/-- The port a line of the form `... http://host:port` names. -/
def announcedPort (line : String) : Option String :=
  (splitLast ':' line.toList).map (fun p => String.mk p.2)

/-- The messages of the log lines among some events. -/
def logLines : List Event → List String
  | [] => []
  | .logLine m :: es => m :: logLines es
  | _ :: es => logLines es

/-- Whether an event is a listen call. -/
def Event.isListen : Event → Bool
  | .listen _ _ => true
  | _ => false

/-- The events before the first listen call. -/
def beforeListen (t : List Event) : List Event := t.takeWhile (fun e => !e.isListen)

/-- The file server `main` registers. -/
def rootServer : Handler := .fileServer ⟨"."⟩

/-- An environment in which port 8080 is held by another process. -/
def portTaken : Env :=
  { args := [], environ := [], files := fun _ => none,
    listen := fun _ => .bindFails "listen tcp :8080: bind: address already in use" }

/-- An environment in which the port is free and the server is never stopped. -/
def portFree : Env :=
  { args := [], environ := [], files := fun _ => none, listen := fun _ => .servesForever }

/-! ## The file server behind the route

`http.FileServer(http.Dir("."))` is Go's `net/http` file server (`fs.go`).  Its
request path handling is embedded here for a `GET` request that carries no conditional
and no `Range` header, over a file system of regular files, directories and symbolic
links, which opening a file follows. -/

/-- The errors opening a file reports: no such file (`ENOENT`), permission denied
(`EACCES`), a path component that is not a directory (`ENOTDIR`), an invalid name,
too many symbolic links (`ELOOP`), a file name that is too long (`ENAMETOOLONG`). -/
inductive Errno where
  | notExist
  | permission
  | notDir
  | invalid
  | loop
  | nameTooLong
deriving DecidableEq, Repr

/-- A file system node: a regular file with its bytes, a directory with its entries,
or a symbolic link with its target; `ok` says whether the process may open (and, for a
directory, search) it. -/
inductive Node where
  | file (ok : Bool) (content : String)
  | dir (ok : Bool) (entries : List (String × Node))
  | link (target : String)

/-- Whether a node is a directory (`FileInfo.IsDir`). -/
def Node.isDir : Node → Bool
  | .file _ _ => false
  | .dir _ _ => true
  | .link _ => false

/-- Whether the process may open the node. -/
def Node.ok : Node → Bool
  | .file b _ => b
  | .dir b _ => b
  | .link _ => true

/-- The entry of a directory with a given name. -/
def Node.child (n : Node) (name : String) : Option Node :=
  match n with
  | .file _ _ => none
  | .dir _ es => (es.find? (fun e => e.1 = name)).map Prod.snd
  | .link _ => none

/-- The node reached from `n` by descending through the named entries, whatever the
permissions and without following a symbolic link: `none` when some step names no
entry. -/
def Node.descend (n : Node) : List String → Option Node
  | [] => some n
  | s :: rest =>
    match n.child s with
    | none => none
    | some c => c.descend rest

/-- The file system as the process sees it: the tree from `/` and the current working
directory as the entry names leading to it. -/
structure FS where
  root : Node
  cwd : List String

/-- The pieces of a path between slashes. -/
def splitSlash : List Char → List (List Char)
  | [] => [[]]
  | c :: cs =>
    if c = '/' then [] :: splitSlash cs
    else
      match splitSlash cs with
      | [] => [[c]]
      | e :: es => (c :: e) :: es

/-- The pieces joined by slashes. -/
def joinSlash : List (List Char) → List Char
  | [] => []
  | [e] => e
  | e :: es => e ++ '/' :: joinSlash es

/-- The element rules of Go's `path.Clean`: empty and `.` elements are dropped, a `..`
removes the element before it, a `..` at the start of a rooted path is dropped and one
at the start of an unrooted path is kept.  `acc` holds the elements kept so far, the
last one first. -/
def cleanElems (rooted : Bool) : List (List Char) → List (List Char) → List (List Char)
  | [], acc => acc.reverse
  | e :: es, acc =>
    if e = [] ∨ e = ['.'] then cleanElems rooted es acc
    else if e = ['.', '.'] then
      match acc with
      | [] => if rooted then cleanElems rooted es [] else cleanElems rooted es [e]
      | a :: acc1 =>
        if a = ['.', '.'] then cleanElems rooted es (e :: a :: acc1)
        else cleanElems rooted es acc1
    else cleanElems rooted es (e :: acc)

/-- Go's `path.Clean` on the characters of a path. -/
def cleanChars (p : List Char) : List Char :=
  if p = [] then ['.']
  else
    let rooted := p.head? = some '/'
    let out := joinSlash (cleanElems rooted (splitSlash p) [])
    if rooted then '/' :: out else if out = [] then ['.'] else out

/-- Go's `path.Clean`. -/
def path.Clean (p : String) : String := String.mk (cleanChars p.toList)

/-- Go's `path.Base`: the last element of a path, trailing slashes removed; `.` for
the empty path and `/` for a path of slashes only. -/
def path.Base (p : String) : String :=
  if p = "" then "."
  else
    match ((splitSlash p.toList).filter (fun e => e ≠ [])).getLast? with
    | none => "/"
    | some e => String.mk e

/-- Go's `filepath.Join` of two elements on a system whose separator is `/`: the
non-empty elements joined by the separator, then cleaned. -/
def filepath.Join (a b : String) : String :=
  if a = "" ∧ b = "" then ""
  else if a = "" then path.Clean b
  else if b = "" then path.Clean a
  else path.Clean (String.mk (a.toList ++ '/' :: b.toList))

/-- The longest file name, in bytes (`NAME_MAX`). -/
def nameMax : Nat := 255

/-- The most symbolic links followed in one path resolution (`MAXSYMLINKS`). -/
def maxSymlinks : Nat := 40

/-- One step of path resolution.  The list holds the directories entered so far, the
current one first; an empty element (a doubled or trailing slash) stays in place, `.`
names the current directory and `..` the one above it; any other element names an
entry of the current directory, which is put on the list, a symbolic link not yet
followed. -/
def stepInto (stack : List Node) (name : List Char) : Except Errno (List Node) :=
  match stack with
  | [] => .error .notExist
  | cur :: up =>
    if !cur.isDir then .error .notDir
    else if name = [] then .ok stack
    else if !cur.ok then .error .permission
    else if name = ['.'] then .ok stack
    else if name = ['.', '.'] then .ok (if up.isEmpty then stack else up)
    else
      match cur.child (String.mk name) with
      | none =>
        if nameMax < (name.map Char.utf8Size).sum then .error .nameTooLong
        else .error .notExist
      | some c => .ok (c :: stack)

/-- Where path resolution stands: at the end of the elements, or at a symbolic link
found in the directories `dirs` with elements still to resolve after it. -/
inductive Walked where
  | done (stack : List Node)
  | atLink (dirs : List Node) (target : String) (rest : List (List Char))

/-- Path resolution over the elements of a name, up to the first symbolic link. -/
def walk : List Node → List (List Char) → Except Errno Walked
  | stack, [] => .ok (.done stack)
  | stack, e :: es =>
    match stepInto stack e with
    | .error err => .error err
    | .ok (.link t :: dirs) => .ok (.atLink dirs t es)
    | .ok stack1 => walk stack1 es

/-- Path resolution that follows symbolic links, at most `budget` of them: the
elements of a link's target are resolved from `/` when the target is absolute and
from the directory holding the link otherwise, before the elements after the link. -/
def follow (root : Node) : Nat → List Node → List (List Char) → Except Errno (List Node)
  | 0, stack, elems =>
    match walk stack elems with
    | .error err => .error err
    | .ok (.done st) => .ok st
    | .ok (.atLink _ _ _) => .error .loop
  | budget + 1, stack, elems =>
    match walk stack elems with
    | .error err => .error err
    | .ok (.done st) => .ok st
    | .ok (.atLink dirs t rest) =>
      if t = "" then .error .notExist
      else
        follow root budget (if t.toList.head? = some '/' then [root] else dirs)
          (splitSlash t.toList ++ rest)

/-- The directories entered on the way from `stack` down the named entries, the last
one first. -/
def enter : List Node → List String → Option (List Node)
  | stack, [] => some stack
  | [], _ :: _ => none
  | cur :: up, s :: rest =>
    match cur.child s with
    | none => none
    | some c => enter (c :: cur :: up) rest

/-- The node the elements of a name lead to from `stack`, opened. -/
def openFrom (root : Node) (stack : List Node) (elems : List (List Char)) :
    Except Errno Node :=
  match follow root maxSymlinks stack elems with
  | .error err => .error err
  | .ok [] => .error .notExist
  | .ok (n :: _) => if n.ok then .ok n else .error .permission

/-- Go's `os.Open(name)`: an absolute name is resolved from `/`, any other from the
current working directory; symbolic links are followed. -/
def os.Open (fs : FS) (name : String) : Except Errno Node :=
  if name = "" then .error .notExist
  else
    let start :=
      if name.toList.head? = some '/' then some [fs.root] else enter [fs.root] fs.cwd
    match start with
    | none => .error .notExist
    | some stack => openFrom fs.root stack (splitSlash name.toList)

/-- The name `http.Dir.Open(name)` hands to `os.Open`: `name` cleaned as a rooted
path, made relative and joined under the directory. -/
def Dir.fullName (d : Dir) (name : String) : String :=
  let p := (cleanChars ('/' :: name.toList)).drop 1
  let p := if p = [] then ['.'] else p
  let dir := if d.root = "" then "." else d.root
  filepath.Join dir (String.mk p)

/-- Go's `mapOpenError`: an error that is neither "not exist" nor "permission" becomes
"not exist" when a component of the name is a regular file, which is the case of
`ENOTDIR`. -/
def mapOpenError : Errno → Errno
  | .notDir => .notExist
  | e => e

/-- Go's `http.Dir.Open`. A name holding a NUL byte is refused before the file system
is consulted. -/
def Dir.Open (d : Dir) (fs : FS) (name : String) : Except Errno Node :=
  if (Char.ofNat 0) ∈ name.toList then .error .invalid
  else
    match os.Open fs (d.fullName name) with
    | .error err => .error (mapOpenError err)
    | .ok f => .ok f

/-- A response body: nothing, an error message, the bytes of a file, the HTML index
of a directory given by the names it links to, in order, or the HTML anchor to the
new location that `http.Redirect` writes. -/
inductive Body where
  | empty
  | text (msg : String)
  | bytes (content : String)
  | listing (names : List String)
  | anchor (path : String)
deriving DecidableEq, Repr

/-- An HTTP response: status code, `Location` header and body. -/
structure Response where
  status : Nat
  location : Option String
  body : Body
deriving DecidableEq, Repr

/-- Go's `toHTTPError` followed by `http.Error`. -/
def serveError : Errno → Response
  | .notExist => ⟨404, none, .text "404 page not found"⟩
  | .permission => ⟨403, none, .text "403 Forbidden"⟩
  | _ => ⟨500, none, .text "500 Internal Server Error"⟩

/-- Go's `localRedirect`: status 301 with the new location. -/
def localRedirect (newPath : String) : Response := ⟨301, some newPath, .empty⟩

/-- Go's `dirList`: the entries sorted by name, a directory's name followed by a
slash, each the target and text of one anchor of the page. -/
def dirList (f : Node) : Response :=
  match f with
  | .file _ _ => ⟨500, none, .text "Error reading directory"⟩
  | .link _ => ⟨500, none, .text "Error reading directory"⟩
  | .dir _ es =>
    let sorted := es.insertionSort (fun a b => a.1.toList ≤ b.1.toList)
    ⟨200, none, .listing (sorted.map (fun e => if e.2.isDir then e.1 ++ "/" else e.1))⟩

/-- Go's `serveContent` for a request without conditional and range headers. -/
def serveContent (f : Node) : Response :=
  match f with
  | .file _ content => ⟨200, none, .bytes content⟩
  | .dir _ _ => ⟨500, none, .text "500 Internal Server Error"⟩
  | .link _ => ⟨500, none, .text "500 Internal Server Error"⟩

/-- Whether the characters end in a slash. -/
def endsInSlash (p : List Char) : Bool := p.getLast? = some '/'

/-- Go's `serveFile(w, r, fs, name, redirect)`; `url` is `r.URL.Path`. -/
def serveFile (fs : FS) (url : String) (root : Dir) (name : String) (redirect : Bool) :
    Response :=
  if "/index.html".toList.isSuffixOf url.toList then localRedirect "./"
  else
    match root.Open fs name with
    | .error err => serveError err
    | .ok f =>
      if redirect ∧ f.isDir ∧ !endsInSlash url.toList then
        localRedirect (path.Base url ++ "/")
      else if redirect ∧ !f.isDir ∧ endsInSlash url.toList then
        if path.Base url = "/" ∨ path.Base url = "." then
          ⟨500, none, .text "http: attempting to traverse a non-directory"⟩
        else localRedirect ("../" ++ path.Base url)
      else if f.isDir then
        if !endsInSlash url.toList then localRedirect (path.Base url ++ "/")
        else
          let stem := if endsInSlash name.toList then name.toList.dropLast else name.toList
          match root.Open fs (String.mk (stem ++ "/index.html".toList)) with
          | .ok ff => if ff.isDir then dirList ff else serveContent ff
          | .error _ => dirList f
      else serveContent f

/-- The `ServeHTTP` method of a handler.  `http.FileServer(root)`: a missing leading
slash is added to the request path, and the cleaned path is served.  A redirect
handler answers 301 with the location (on the wire the percent-encoded form of the
path) and an anchor to it; the not-found handler answers 404. -/
def Handler.ServeHTTP (h : Handler) (fs : FS) (urlPath : String) : Response :=
  match h with
  | .fileServer root =>
    let upath := if urlPath.toList.head? = some '/' then urlPath
                 else String.mk ('/' :: urlPath.toList)
    serveFile fs upath root (path.Clean upath) true
  | .redirect path => ⟨301, some path, .anchor path⟩
  | .notFound => ⟨404, none, .text "404 page not found"⟩

/-- Go's `cleanPath`: the canonical form of a request path, which begins with a slash,
has no empty, `.` or `..` element and keeps a trailing slash. -/
def cleanPath (p : String) : String :=
  if p = "" then "/"
  else
    let p1 := if p.toList.head? = some '/' then p else String.mk ('/' :: p.toList)
    let np := path.Clean p1
    if endsInSlash p1.toList ∧ np ≠ "/" then
      if p1.toList.length = np.toList.length + 1 ∧ np.toList.isPrefixOf p1.toList then p1
      else String.mk (np.toList ++ ['/'])
    else np

/-- Go's `ServeMux.shouldRedirect` for patterns that name no host: whether `path`
itself is not registered while `path/` is. -/
def ServeMux.shouldRedirect (m : List (String × Handler)) (path : String) : Bool :=
  if m.any (fun e => e.1 = path) then false
  else if path.toList = [] then false
  else if m.any (fun e => e.1.toList = path.toList ++ ['/']) then !endsInSlash path.toList
  else false

/-- Go's `ServeMux.Handler` for a request that is not a `CONNECT`, by its path as the
request line writes it (no dot or slash of it percent-encoded): the path is brought to
canonical form; a path `/tree` whose `/tree/` is registered, and a path that is not in
canonical form, are answered by a redirect handler of the multiplexer; otherwise the
handler is the match among the registered patterns, or the not-found handler. -/
def ServeMux.Handler (m : List (String × Handler)) (urlPath : String) : Handler :=
  let path := cleanPath urlPath
  if ServeMux.shouldRedirect m path then .redirect (String.mk (path.toList ++ ['/']))
  else if path ≠ urlPath then .redirect path
  else
    match ServeMux.matchPath m urlPath with
    | some h => h
    | none => .notFound

/-- The handler that serves a request path in a server started by a listen call: the
handler argument, or what the default multiplexer answers when the argument is
`nil`. -/
def ListenCall.dispatch (c : ListenCall) (path : String) : Handler :=
  match c.handler with
  | some h => h
  | none => ServeMux.Handler c.routes path

/-- The response of a server started by a listen call to a request path. -/
def ListenCall.respond (c : ListenCall) (fs : FS) (urlPath : String) : Response :=
  (c.dispatch urlPath).ServeHTTP fs urlPath

/-- An element that cleaning keeps: not empty, not `.`, not `..`, without a slash. -/
def Good (e : List Char) : Prop := e ≠ [] ∧ e ≠ ['.'] ∧ e ≠ ['.', '.'] ∧ '/' ∉ e

/-- The elements of a request path once cleaned as a rooted path. -/
def requestElems (urlPath : String) : List (List Char) :=
  cleanElems true (splitSlash ('/' :: urlPath.toList)) []

/-- The current working directory of the process. -/
def FS.wd (fs : FS) : Option Node :=
  match fs.root.descend fs.cwd with
  | some n => if n.isDir then some n else none
  | none => none

/-- The node reached from `n` through the named entries when the process may search
every directory on the way and open the node reached. -/
def Node.descendOk (n : Node) : List String → Option Node
  | [] => if n.ok then some n else none
  | s :: rest =>
    if n.ok then
      match n.child s with
      | none => none
      | some c => c.descendOk rest
    else none

/-- The node a request path names under the working directory: the elements of the
cleaned path, descended from the working directory. -/
def resolve (fs : FS) (urlPath : String) : Option Node :=
  match fs.wd with
  | none => none
  | some wd => wd.descend ((requestElems urlPath).map String.mk)

/-- The node a request path names under the working directory, when the process may
open it. -/
def resolveOk (fs : FS) (urlPath : String) : Option Node :=
  match fs.wd with
  | none => none
  | some wd => wd.descendOk ((requestElems urlPath).map String.mk)

/-- The request path the file server works on: a leading slash is added when missing. -/
def rooted (urlPath : String) : String :=
  if urlPath.toList.head? = some '/' then urlPath else String.mk ('/' :: urlPath.toList)

/-- A file system: `/etc/passwd`, and the working directory `/srv` holding `hello.txt`,
`a.txt`, `index.html`, its own `etc/passwd` and the directory `sub`. -/
def sampleFS : FS :=
  { root := .dir true
      [("etc", .dir true [("passwd", .file true "root:x:0:0")]),
       ("srv", .dir true
          [("hello.txt", .file true "hi"),
           ("sub", .dir true [("b.txt", .file true "b")]),
           ("a.txt", .file true "a"),
           ("etc", .dir true [("passwd", .file true "decoy")]),
           ("index.html", .file true "<h1>home</h1>")])],
    cwd := ["srv"] }

/-- A file system: `/etc/passwd`, and the working directory `/srv` holding `hello.txt`
and a symbolic link `link` to `/etc/passwd`. -/
def linkedFS : FS :=
  { root := .dir true
      [("etc", .dir true [("passwd", .file true "root:x:0:0")]),
       ("srv", .dir true
          [("hello.txt", .file true "hi"),
           ("link", .link "/etc/passwd")])],
    cwd := ["srv"] }

/-- The listen call of `main`. -/
def served : ListenCall := ⟨":8080", none, [("/", .fileServer ⟨"."⟩)]⟩

/-- A working directory holding `a.txt` and `sub/` only. -/
def listingFS : FS :=
  { root := .dir true
      [("srv", .dir true [("sub", .dir true []), ("a.txt", .file true "a")])],
    cwd := ["srv"] }

/-! ## The three runs of `main` -/

theorem run_bindFails (env : Env) (err : String) (h : env.listen ":8080" = .bindFails err) :
    run env =
      { mux := [("/", rootServer)],
        log := [announcement, err],
        listens := [⟨":8080", none, [("/", rootServer)]⟩],
        trace := [.handle "/" rootServer, .logLine announcement, .listen ":8080" none,
                  .logLine err, .exit 1],
        status := .exited 1 } := by
  simp [run, main, http.Handle, log.Println, http.ListenAndServe, log.Fatal, World.init, h,
    http.FileServer, http.Dir, rootServer, announcement]

theorem run_servesThenFails (env : Env) (err : String)
    (h : env.listen ":8080" = .servesThenFails err) :
    run env =
      { mux := [("/", rootServer)],
        log := [announcement, err],
        listens := [⟨":8080", none, [("/", rootServer)]⟩],
        trace := [.handle "/" rootServer, .logLine announcement, .listen ":8080" none,
                  .logLine err, .exit 1],
        status := .exited 1 } := by
  simp [run, main, http.Handle, log.Println, http.ListenAndServe, log.Fatal, World.init, h,
    http.FileServer, http.Dir, rootServer, announcement]

theorem run_servesForever (env : Env) (h : env.listen ":8080" = .servesForever) :
    run env =
      { mux := [("/", rootServer)],
        log := [announcement],
        listens := [⟨":8080", none, [("/", rootServer)]⟩],
        trace := [.handle "/" rootServer, .logLine announcement, .listen ":8080" none],
        status := .serving } := by
  simp [run, main, http.Handle, log.Println, http.ListenAndServe, World.init, h,
    http.FileServer, http.Dir, rootServer, announcement]

/-! ## Startup -/

/-- C1: when binding port 8080 fails, the program logs that error and then terminates
with exit status 1 (non-zero), after exactly one listen call, made on `:8080`: the
effects of the run are the registration, the announcement, the one listen call, the
error line and the exit, in this order. -/
theorem bind_failure_is_fatal (env : Env) (err : String)
    (h : env.listen ":8080" = .bindFails err) :
    (run env).status = .exited 1 ∧ (1 : Nat) ≠ 0 ∧
    (run env).trace =
      [.handle "/" rootServer, .logLine announcement, .listen ":8080" none,
       .logLine err, .exit 1] ∧
    (run env).log.getLast? = some err ∧
    ((run env).trace.filter Event.isListen).length = 1 ∧
    (run env).listens.map ListenCall.addr = [":8080"] := by
  rw [run_bindFails env err h]
  simp [Event.isListen]

theorem bind_failure_is_fatal_witness :
    portTaken.listen ":8080" =
        .bindFails "listen tcp :8080: bind: address already in use" ∧
    (run portTaken).status = .exited 1 ∧
    (run portTaken).log.getLast? =
        some "listen tcp :8080: bind: address already in use" :=
  have h := bind_failure_is_fatal portTaken
    "listen tcp :8080: bind: address already in use" rfl
  ⟨rfl, h.1, h.2.2.2.1⟩

/-- C2, as stated, fails: with port 8080 held by another process the run ends with
exit status 1, and the announcement line has been written all the same. -/
theorem announcement_emitted_on_bind_failure :
    (run portTaken).status = .exited 1 ∧ announcement ∈ (run portTaken).log ∧
    Event.logLine "serving on http://localhost:8080" ∈ (run portTaken).trace := by
  rw [run_bindFails portTaken _ rfl]
  simp [announcement]

/-- C2, amended: when the bind fails the process terminates with exit status 1, and
the announcement is written exactly once, before the listen call, in that run as in
every other: the log is the announcement followed by the bind error. -/
theorem bind_failure_after_announcement (env : Env) (err : String)
    (h : env.listen ":8080" = .bindFails err) :
    (run env).status = .exited 1 ∧
    (run env).log = [announcement, err] ∧
    logLines (beforeListen (run env).trace) = [announcement] := by
  rw [run_bindFails env err h]
  refine ⟨rfl, rfl, ?_⟩
  simp [beforeListen, logLines, Event.isListen, List.takeWhile]

theorem bind_failure_after_announcement_witness :
    portTaken.listen ":8080" =
        .bindFails "listen tcp :8080: bind: address already in use" ∧
    (run portTaken).log =
        [announcement, "listen tcp :8080: bind: address already in use"] :=
  have h := bind_failure_after_announcement portTaken
    "listen tcp :8080: bind: address already in use" rfl
  ⟨rfl, h.2.1⟩

/-- Every run is one of the three computed above. -/
theorem run_cases (env : Env) :
    (∃ err, run env =
      { mux := [("/", rootServer)], log := [announcement, err],
        listens := [⟨":8080", none, [("/", rootServer)]⟩],
        trace := [.handle "/" rootServer, .logLine announcement, .listen ":8080" none,
                  .logLine err, .exit 1],
        status := .exited 1 }) ∨
    run env =
      { mux := [("/", rootServer)], log := [announcement],
        listens := [⟨":8080", none, [("/", rootServer)]⟩],
        trace := [.handle "/" rootServer, .logLine announcement, .listen ":8080" none],
        status := .serving } := by
  cases h : env.listen ":8080" with
  | bindFails err => exact Or.inl ⟨err, run_bindFails env err h⟩
  | servesForever => exact Or.inr (run_servesForever env h)
  | servesThenFails err => exact Or.inl ⟨err, run_servesThenFails env err h⟩

/-- C3: when the bind succeeds, the lines written to the log before the listen call,
after which the program blocks in the accept loop, are exactly one line, the
announcement `serving on http://localhost:8080`; the listen call is made, and as long
as the accept loop does not return the log holds nothing else. -/
theorem one_announcement_before_listen (env : Env)
    (h : (env.listen ":8080").bound = true) :
    logLines (beforeListen (run env).trace) = ["serving on http://localhost:8080"] ∧
    (∃ post, (run env).trace =
      beforeListen (run env).trace ++ Event.listen ":8080" none :: post) ∧
    (env.listen ":8080" = .servesForever →
      (run env).status = .serving ∧
      (run env).log = ["serving on http://localhost:8080"]) := by
  cases hl : env.listen ":8080" with
  | bindFails err => rw [hl] at h; simp [ListenOutcome.bound] at h
  | servesForever =>
    rw [run_servesForever env hl]
    simp [beforeListen, logLines, Event.isListen, List.takeWhile, announcement]
  | servesThenFails err =>
    rw [run_servesThenFails env err hl]
    simp [beforeListen, logLines, Event.isListen, List.takeWhile, announcement]

theorem one_announcement_before_listen_witness :
    (portFree.listen ":8080").bound = true ∧
    logLines (beforeListen (run portFree).trace) = ["serving on http://localhost:8080"] :=
  ⟨rfl, (one_announcement_before_listen portFree rfl).1⟩

/-- C5: in every run there is one listen call, its address is `:8080`, whose host part
is empty and whose port is 8080, so that the socket is bound on all interfaces; the
port named by the announcement line is the port bound. -/
theorem listens_on_all_interfaces_8080 (env : Env) :
    (run env).listens.map ListenCall.addr = [":8080"] ∧
    ((run env).trace.filter Event.isListen) = [Event.listen ":8080" none] ∧
    splitHostPort ":8080" = some ("", "8080") ∧
    listenScope "" = BindScope.allInterfaces ∧
    (run env).log.head? = some announcement ∧
    announcedPort announcement = some "8080" ∧
    (∀ c ∈ (run env).listens, ∀ line ∈ (run env).log.head?,
      (splitHostPort c.addr).map Prod.snd = announcedPort line) := by
  have h1 : splitHostPort ":8080" = some ("", "8080") := by decide
  have h2 : announcedPort announcement = some "8080" := by decide
  refine ⟨?_, ?_, h1, by decide, ?_, h2, ?_⟩ <;>
    rcases run_cases env with ⟨err, h⟩ | h <;> rw [h] <;>
    simp [Event.isListen, h1, h2]

/-- C6: no run ends with exit status 0: a run either blocks serving requests or, when
the listen call returns an error (a bind failure or a later one), exits with status 1;
`main` never returns normally. -/
theorem never_exits_zero (env : Env) :
    (run env).status ≠ .exited 0 ∧
    (main env).status ≠ .running ∧
    ((run env).status = .serving ∨ (run env).status = .exited 1) ∧
    ((run env).status = .serving ↔ env.listen ":8080" = .servesForever) ∧
    (∀ err, (env.listen ":8080" = .bindFails err ∨
        env.listen ":8080" = .servesThenFails err) → (run env).status = .exited 1) := by
  have hmain : (main env).status ≠ .running := by
    cases h : env.listen ":8080" <;>
      simp [main, http.Handle, log.Println, http.ListenAndServe, log.Fatal, World.init, h]
  cases h : env.listen ":8080" with
  | bindFails err => rw [run_bindFails env err h]; simp [hmain]
  | servesForever => rw [run_servesForever env h]; simp [hmain]
  | servesThenFails err => rw [run_servesThenFails env err h]; simp [hmain]

/-- C10: there is no configuration surface. Two runs whose environments agree on what
the operating system answers to the listen call are identical, whatever their
command-line arguments, environment variables and files; and in any two runs at all
the registered route, the served root `.`, the listen calls and the announcement are
the same. -/
theorem no_configuration_surface (e1 e2 : Env) :
    (e1.listen ":8080" = e2.listen ":8080" → run e1 = run e2) ∧
    (run e1).mux = (run e2).mux ∧
    (run e1).mux = [("/", Handler.fileServer ⟨"."⟩)] ∧
    (run e1).listens = (run e2).listens ∧
    (run e1).listens.map ListenCall.addr = [":8080"] ∧
    (run e1).log.head? = (run e2).log.head? ∧
    (run e1).log.head? = some "serving on http://localhost:8080" := by
  refine ⟨?_, ?_⟩
  · intro h
    cases h1 : e1.listen ":8080" with
    | bindFails err =>
      rw [run_bindFails e1 err h1, run_bindFails e2 err (h ▸ h1)]
    | servesForever =>
      rw [run_servesForever e1 h1, run_servesForever e2 (h ▸ h1)]
    | servesThenFails err =>
      rw [run_servesThenFails e1 err h1, run_servesThenFails e2 err (h ▸ h1)]
  · rcases run_cases e1 with ⟨err1, h1⟩ | h1 <;> rcases run_cases e2 with ⟨err2, h2⟩ | h2 <;>
      rw [h1, h2] <;> simp [rootServer, announcement]

/-! ## Path cleaning -/

theorem splitSlash_slashFree (p : List Char) : ∀ e ∈ splitSlash p, '/' ∉ e := by
  induction p with
  | nil => simp [splitSlash]
  | cons c cs ih =>
    unfold splitSlash
    split
    · intro e he
      rcases List.mem_cons.mp he with h | h
      · simp [h]
      · exact ih e h
    · rename_i hc
      split
      · intro e he
        simp only [List.mem_singleton] at he
        subst he
        simpa using Ne.symm hc
      · rename_i e0 es heq
        intro e he
        rw [heq] at ih
        rcases List.mem_cons.mp he with h | h
        · subst h
          have := ih e0 (List.mem_cons_self _ _)
          simp only [List.mem_cons, not_or]
          exact ⟨Ne.symm hc, this⟩
        · exact ih e (List.mem_cons_of_mem _ h)

theorem splitSlash_cons_of_ne (c : Char) (cs e : List Char) (es : List (List Char))
    (hc : ¬ c = '/') (h : splitSlash cs = e :: es) :
    splitSlash (c :: cs) = (c :: e) :: es := by
  simp [splitSlash, hc, h]

theorem splitSlash_of_slashFree (e : List Char) (h : '/' ∉ e) : splitSlash e = [e] := by
  induction e with
  | nil => simp [splitSlash]
  | cons c cs ih =>
    simp only [List.mem_cons, not_or] at h
    exact splitSlash_cons_of_ne c cs cs [] (fun hc => h.1 hc.symm) (ih h.2)

theorem splitSlash_append (e r : List Char) (h : '/' ∉ e) :
    splitSlash (e ++ '/' :: r) = e :: splitSlash r := by
  induction e with
  | nil => simp [splitSlash]
  | cons c cs ih =>
    simp only [List.mem_cons, not_or] at h
    rw [List.cons_append]
    exact splitSlash_cons_of_ne c _ cs _ (fun hc => h.1 hc.symm) (ih h.2)

theorem splitSlash_joinSlash (E : List (List Char)) (hne : E ≠ [])
    (h : ∀ e ∈ E, '/' ∉ e) : splitSlash (joinSlash E) = E := by
  induction E with
  | nil => exact absurd rfl hne
  | cons e es ih =>
    cases es with
    | nil => simpa [joinSlash] using splitSlash_of_slashFree e (h e (List.mem_cons_self _ _))
    | cons e1 es1 =>
      have h1 := ih (by simp) (fun x hx => h x (List.mem_cons_of_mem _ hx))
      simp only [joinSlash]
      rw [splitSlash_append _ _ (h e (List.mem_cons_self _ _)), h1]

theorem joinSlash_ne_nil (E : List (List Char)) (hne : E ≠ [])
    (h : ∀ e ∈ E, Good e) : joinSlash E ≠ [] := by
  cases E with
  | nil => exact absurd rfl hne
  | cons e es =>
    have he := (h e (List.mem_cons_self _ _)).1
    cases es with
    | nil => simpa [joinSlash] using he
    | cons e1 es1 => simp [joinSlash, he]

theorem cleanElems_good (es : List (List Char)) :
    ∀ acc : List (List Char), (∀ a ∈ acc, Good a) → (∀ e ∈ es, '/' ∉ e) →
      ∀ x ∈ cleanElems true es acc, Good x := by
  induction es with
  | nil =>
    intro acc hacc _ x hx
    simp only [cleanElems, List.mem_reverse] at hx
    exact hacc x hx
  | cons e es ih =>
    intro acc hacc hes x hx
    have hes1 : ∀ e ∈ es, '/' ∉ e := fun y hy => hes y (List.mem_cons_of_mem _ hy)
    unfold cleanElems at hx
    split at hx
    · exact ih acc hacc hes1 x hx
    · rename_i h1
      split at hx
      · cases acc with
        | nil =>
          simp only [↓reduceIte] at hx
          exact ih [] (by simp) hes1 x hx
        | cons a acc1 =>
          simp only at hx
          split at hx
          · rename_i ha
            exact absurd ha (hacc a (List.mem_cons_self _ _)).2.2.1
          · exact ih acc1 (fun y hy => hacc y (List.mem_cons_of_mem _ hy)) hes1 x hx
      · rename_i h2
        refine ih (e :: acc) ?_ hes1 x hx
        intro y hy
        rcases List.mem_cons.mp hy with h | h
        · subst h
          simp only [not_or] at h1
          exact ⟨h1.1, h1.2, h2, hes y (List.mem_cons_self _ _)⟩
        · exact hacc y h

theorem cleanElems_id (r : Bool) (E : List (List Char)) :
    ∀ acc : List (List Char), (∀ e ∈ E, Good e) → cleanElems r E acc = acc.reverse ++ E := by
  induction E with
  | nil => intro acc _; simp [cleanElems]
  | cons e es ih =>
    intro acc h
    have he := h e (List.mem_cons_self _ _)
    unfold cleanElems
    rw [if_neg (by simp [he.1, he.2.1]), if_neg he.2.2.1,
      ih (e :: acc) (fun y hy => h y (List.mem_cons_of_mem _ hy))]
    simp

theorem requestElems_good (urlPath : String) : ∀ e ∈ requestElems urlPath, Good e :=
  cleanElems_good _ [] (by simp) (splitSlash_slashFree _)

theorem mk_eq_empty (p : List Char) : String.mk p = "" ↔ p = [] := by
  constructor
  · intro h
    have := congrArg String.data h
    simpa using this
  · intro h
    subst h
    rfl

theorem cleanChars_rooted (p : List Char) :
    cleanChars ('/' :: p) = '/' :: joinSlash (cleanElems true (splitSlash ('/' :: p)) []) := by
  simp [cleanChars]

theorem head_joinSlash (E : List (List Char)) (h : ∀ e ∈ E, Good e) :
    (joinSlash E).head? ≠ some '/' := by
  cases E with
  | nil => simp [joinSlash]
  | cons e es =>
    have he := h e (List.mem_cons_self _ _)
    cases e with
    | nil => exact absurd rfl he.1
    | cons c cs =>
      have hc : ¬ '/' = c := fun hc => he.2.2.2 (by rw [hc]; exact List.mem_cons_self _ _)
      cases es with
      | nil => simpa [joinSlash] using Ne.symm hc
      | cons e1 es1 => simpa [joinSlash] using Ne.symm hc

theorem cleanChars_relative (E : List (List Char)) (hne : E ≠ []) (h : ∀ e ∈ E, Good e) :
    cleanChars ('.' :: '/' :: joinSlash E) = joinSlash E := by
  have hs : splitSlash ('.' :: '/' :: joinSlash E) = ['.'] :: E := by
    have h1 : splitSlash ('/' :: joinSlash E) = [] :: E := by
      simp [splitSlash, splitSlash_joinSlash E hne (fun e he => (h e he).2.2.2)]
    exact splitSlash_cons_of_ne '.' _ [] E (by decide) h1
  have hj := joinSlash_ne_nil E hne h
  simp only [cleanChars, hs]
  simp [cleanElems, cleanElems_id false E [] h, hj]

theorem fullName_eq (nm : String) :
    (Dir.mk ".").fullName nm =
      String.mk (if requestElems nm = [] then ['.'] else joinSlash (requestElems nm)) := by
  have hg := requestElems_good nm
  unfold Dir.fullName
  simp only [cleanChars_rooted, List.drop_succ_cons, List.drop_zero]
  change filepath.Join (if "." = "" then "." else ".")
      (String.mk (if joinSlash (requestElems nm) = [] then ['.']
        else joinSlash (requestElems nm))) = _
  by_cases hE : requestElems nm = []
  · rw [hE]
    decide
  · have hj := joinSlash_ne_nil _ hE hg
    rw [if_neg hE, if_neg hj]
    have h1 : ¬ ("." : String) = "" := by decide
    have h2 : ¬ String.mk (joinSlash (requestElems nm)) = "" := by
      rw [mk_eq_empty]; exact hj
    simp only [filepath.Join, h1, h2, if_false, false_and, and_false, path.Clean]
    congr 1
    exact cleanChars_relative _ hE hg

/-! ## Path resolution -/

theorem child_isDir (n c : Node) (s : String) (h : n.child s = some c) : n.isDir = true := by
  cases n with
  | file ok content => simp [Node.child] at h
  | dir ok es => rfl
  | link t => simp [Node.child] at h

theorem stepInto_good (cur : Node) (up st : List Node) (e : List Char) (he : Good e)
    (h : stepInto (cur :: up) e = .ok st) :
    ∃ c, st = c :: cur :: up ∧ cur.child (String.mk e) = some c ∧ cur.ok = true := by
  unfold stepInto at h
  simp only [he.1, he.2.1, he.2.2.1, if_false] at h
  split at h
  · cases h
  · split at h
    · cases h
    · rename_i hok
      split at h
      · split at h <;> cases h
      · rename_i c hc
        simp only [Except.ok.injEq] at h
        exact ⟨c, h.symm, hc, by simpa using hok⟩

theorem stepInto_of_child (cur c : Node) (up : List Node) (e : List Char) (he : Good e)
    (hc : cur.child (String.mk e) = some c) (hok : cur.ok = true) :
    stepInto (cur :: up) e = .ok (c :: cur :: up) := by
  unfold stepInto
  simp [he.1, he.2.1, he.2.2.1, child_isDir cur c _ hc, hok, hc]

theorem stepInto_no_child (cur : Node) (up : List Node) (e : List Char) (he : Good e)
    (hc : cur.child (String.mk e) = none) :
    ∃ err, stepInto (cur :: up) e = .error err := by
  unfold stepInto
  simp only [he.1, he.2.1, he.2.2.1, if_false, hc]
  split
  · exact ⟨_, rfl⟩
  · split
    · exact ⟨_, rfl⟩
    · split <;> exact ⟨_, rfl⟩

theorem walk_descend (E : List (List Char)) :
    ∀ (cur : Node) (up st : List Node), (∀ e ∈ E, Good e) →
      walk (cur :: up) E = .ok (.done st) →
      ∃ n rest, st = n :: rest ∧ cur.descend (E.map String.mk) = some n := by
  induction E with
  | nil =>
    intro cur up st _ h
    simp only [walk, Except.ok.injEq, Walked.done.injEq] at h
    exact ⟨cur, up, h.symm, rfl⟩
  | cons e es ih =>
    intro cur up st hg h
    unfold walk at h
    split at h
    · cases h
    · cases h
    · rename_i st1 _ h1
      obtain ⟨c, hst, hc, _⟩ := stepInto_good cur up st1 e (hg e (List.mem_cons_self _ _)) h1
      subst hst
      obtain ⟨n, rest, hn, hd⟩ := ih c (cur :: up) st
        (fun y hy => hg y (List.mem_cons_of_mem _ hy)) h
      exact ⟨n, rest, hn, by simp [Node.descend, hc, hd]⟩

theorem walk_atLink (E : List (List Char)) :
    ∀ (cur : Node) (up dirs : List Node) (t : String) (rest : List (List Char)),
      (∀ e ∈ E, Good e) → walk (cur :: up) E = .ok (.atLink dirs t rest) →
      cur.isDir = true ∧
      ∃ names, names <+: E.map String.mk ∧ cur.descend names = some (.link t) := by
  induction E with
  | nil => intro cur up dirs t rest _ h; simp [walk] at h
  | cons e es ih =>
    intro cur up dirs t rest hg h
    unfold walk at h
    split at h
    · cases h
    · rename_i t1 dirs1 h1
      obtain ⟨c, hst, hc, _⟩ := stepInto_good cur up _ e (hg e (List.mem_cons_self _ _)) h1
      simp only [List.cons.injEq] at hst
      simp only [Except.ok.injEq, Walked.atLink.injEq] at h
      refine ⟨child_isDir cur c _ hc, [String.mk e], ?_, ?_⟩
      · simp [List.prefix_iff_eq_take]
      · simp [Node.descend, hc, ← hst.1, h.2.1]
    · rename_i st1 _ h1
      obtain ⟨c, hst, hc, _⟩ := stepInto_good cur up st1 e (hg e (List.mem_cons_self _ _)) h1
      subst hst
      obtain ⟨_, names, hp, hd⟩ := ih c (cur :: up) dirs t rest
        (fun y hy => hg y (List.mem_cons_of_mem _ hy)) h
      refine ⟨child_isDir cur c _ hc, String.mk e :: names, ?_, ?_⟩
      · simpa using hp
      · simp [Node.descend, hc, hd]

theorem walk_of_descendOk (E : List (List Char)) :
    ∀ (cur n : Node) (up : List Node), (∀ e ∈ E, Good e) → (∀ t, n ≠ .link t) →
      cur.descendOk (E.map String.mk) = some n →
      (∃ rest, walk (cur :: up) E = .ok (.done (n :: rest))) ∧ n.ok = true := by
  induction E with
  | nil =>
    intro cur n up _ _ h
    simp only [List.map_nil, Node.descendOk] at h
    split at h
    · rename_i hok
      simp only [Option.some.injEq] at h
      subst h
      exact ⟨⟨up, rfl⟩, hok⟩
    · cases h
  | cons e es ih =>
    intro cur n up hg hnl h
    simp only [List.map_cons, Node.descendOk] at h
    split at h
    · rename_i hok
      split at h
      · cases h
      · rename_i c hc
        obtain ⟨⟨rest, hw⟩, hn⟩ := ih c n (cur :: up)
          (fun y hy => hg y (List.mem_cons_of_mem _ hy)) hnl h
        refine ⟨⟨rest, ?_⟩, hn⟩
        unfold walk
        rw [stepInto_of_child cur c up e (hg e (List.mem_cons_self _ _)) hc hok]
        cases c with
        | link t =>
          cases es with
          | nil =>
            simp only [List.map_nil, Node.descendOk, Node.ok, if_true,
              Option.some.injEq] at h
            exact absurd h.symm (hnl t)
          | cons e1 es1 => simp [Node.descendOk, Node.ok, Node.child] at h
        | file ok content => exact hw
        | dir ok es1 => exact hw
    · cases h

theorem walk_append (E : List (List Char)) :
    ∀ (stack st : List Node) (F : List (List Char)),
      walk stack E = .ok (.done st) → walk stack (E ++ F) = walk st F := by
  induction E with
  | nil =>
    intro stack st F h
    simp only [walk, Except.ok.injEq, Walked.done.injEq] at h
    subst h
    rfl
  | cons e es ih =>
    intro stack st F h
    rw [List.cons_append]
    cases h1 : stepInto stack e with
    | error err => simp [walk, h1] at h
    | ok st1 =>
      cases st1 with
      | nil =>
        simp only [walk, h1] at h ⊢
        exact ih [] st F h
      | cons c r =>
        cases c with
        | link t => simp [walk, h1] at h
        | file ok content =>
          simp only [walk, h1] at h ⊢
          exact ih _ st F h
        | dir ok es1 =>
          simp only [walk, h1] at h ⊢
          exact ih _ st F h

theorem follow_done (root : Node) (b : Nat) (stack st : List Node) (E : List (List Char))
    (h : walk stack E = .ok (.done st)) : follow root b stack E = .ok st := by
  cases b <;> simp [follow, h]

theorem follow_error (root : Node) (b : Nat) (stack : List Node) (E : List (List Char))
    (err : Errno) (h : walk stack E = .error err) : follow root b stack E = .error err := by
  cases b <;> simp [follow, h]

theorem enter_descend (names : List String) :
    ∀ (cur : Node) (up st : List Node), enter (cur :: up) names = some st →
      ∃ n rest, st = n :: rest ∧ cur.descend names = some n := by
  induction names with
  | nil =>
    intro cur up st h
    simp only [enter, Option.some.injEq] at h
    exact ⟨cur, up, h.symm, rfl⟩
  | cons s rest ih =>
    intro cur up st h
    simp only [enter] at h
    split at h
    · cases h
    · rename_i c hc
      obtain ⟨n, r, hn, hd⟩ := ih c (cur :: up) st h
      exact ⟨n, r, hn, by simp [Node.descend, hc, hd]⟩

theorem enter_of_descend (names : List String) :
    ∀ (cur n : Node) (up : List Node), cur.descend names = some n →
      ∃ rest, enter (cur :: up) names = some (n :: rest) := by
  induction names with
  | nil =>
    intro cur n up h
    simp only [Node.descend, Option.some.injEq] at h
    subst h
    exact ⟨up, rfl⟩
  | cons s rest ih =>
    intro cur n up h
    simp only [Node.descend] at h
    split at h
    · cases h
    · rename_i c hc
      obtain ⟨r, hr⟩ := ih c n (cur :: up) h
      exact ⟨r, by simp [enter, hc, hr]⟩

theorem descend_isDir (cur n : Node) (names : List String) (hne : names ≠ [])
    (h : cur.descend names = some n) : cur.isDir = true := by
  cases names with
  | nil => exact absurd rfl hne
  | cons s rest =>
    simp only [Node.descend] at h
    split at h
    · cases h
    · rename_i c hc
      exact child_isDir cur c s hc

theorem open_fullName (fs : FS) (nm : String) :
    os.Open fs ((Dir.mk ".").fullName nm) =
      match enter [fs.root] fs.cwd with
      | none => .error .notExist
      | some stack =>
        openFrom fs.root stack
          (if requestElems nm = [] then [['.']] else requestElems nm) := by
  have hg := requestElems_good nm
  rw [fullName_eq]
  unfold os.Open
  by_cases hE : requestElems nm = []
  · simp only [hE, if_true]
    rfl
  · have hj := joinSlash_ne_nil _ hE hg
    have hh := head_joinSlash _ hg
    have hs := splitSlash_joinSlash _ hE (fun e he => (hg e he).2.2.2)
    simp only [hE, if_false, mk_eq_empty, hj]
    have hd : (String.mk (joinSlash (requestElems nm))).toList = joinSlash (requestElems nm) := rfl
    rw [hd, if_neg hh, hs]

theorem openFrom_dot (root cur : Node) (up : List Node) :
    openFrom root (cur :: up) [['.']] =
      if !cur.isDir then .error .notDir
      else if !cur.ok then .error .permission else .ok cur := by
  cases cur with
  | file ok content => simp [openFrom, maxSymlinks, follow, walk, stepInto, Node.isDir]
  | link t => simp [openFrom, maxSymlinks, follow, walk, stepInto, Node.isDir]
  | dir ok es =>
    cases ok <;> simp [openFrom, maxSymlinks, follow, walk, stepInto, Node.isDir, Node.ok]

theorem wd_of_descend (fs : FS) (wd : Node) (h : fs.root.descend fs.cwd = some wd)
    (hd : wd.isDir = true) : fs.wd = some wd := by
  simp [FS.wd, h, hd]

theorem openFrom_ok (root : Node) (stack : List Node) (E : List (List Char)) (f : Node)
    (h : openFrom root stack E = .ok f) : f.ok = true := by
  unfold openFrom at h
  split at h
  · cases h
  · cases h
  · split at h
    · rename_i hok
      simp only [Except.ok.injEq] at h
      rw [← h]
      exact hok
    · cases h

theorem Dir_Open_inside (fs : FS) (nm : String) (f : Node)
    (h : (Dir.mk ".").Open fs nm = .ok f) :
    f.ok = true ∧ ∃ wd, fs.wd = some wd ∧
      (wd.descend ((requestElems nm).map String.mk) = some f ∨
       ∃ names t, names <+: (requestElems nm).map String.mk ∧
         wd.descend names = some (.link t)) := by
  have hg := requestElems_good nm
  unfold Dir.Open at h
  split at h
  · cases h
  · rw [open_fullName] at h
    cases hen : enter [fs.root] fs.cwd with
    | none => rw [hen] at h; cases h
    | some stack =>
      rw [hen] at h
      obtain ⟨wd, rest, hst, hwd⟩ := enter_descend fs.cwd fs.root [] stack hen
      subst hst
      simp only at h
      have hopen : openFrom fs.root (wd :: rest)
          (if requestElems nm = [] then [['.']] else requestElems nm) = .ok f := by
        cases ho : openFrom fs.root (wd :: rest)
            (if requestElems nm = [] then [['.']] else requestElems nm) with
        | error e => rw [ho] at h; cases h
        | ok g => rw [ho] at h; simp only [Except.ok.injEq] at h; rw [h]
      have hok := openFrom_ok _ _ _ _ hopen
      refine ⟨hok, ?_⟩
      by_cases hE : requestElems nm = []
      · simp only [hE, if_true, openFrom_dot] at hopen
        cases hd : wd.isDir <;> cases ho : wd.ok <;> simp [hd, ho] at hopen
        subst hopen
        exact ⟨wd, wd_of_descend fs wd hwd hd, Or.inl (by simp [hE, Node.descend])⟩
      · simp only [hE, if_false] at hopen
        cases hw : walk (wd :: rest) (requestElems nm) with
        | error err =>
          simp [openFrom, follow_error _ _ _ _ _ hw] at hopen
        | ok r =>
          cases r with
          | done st =>
            obtain ⟨n, r, hst, hn⟩ := walk_descend _ wd rest st hg hw
            subst hst
            simp only [openFrom, follow_done _ _ _ _ _ hw] at hopen
            cases ho : n.ok <;> simp [ho] at hopen
            subst hopen
            have hdir := descend_isDir wd n _ (by simpa using hE) hn
            exact ⟨wd, wd_of_descend fs wd hwd hdir, Or.inl hn⟩
          | atLink dirs t rs =>
            obtain ⟨hdir, names, hp, hd⟩ := walk_atLink _ wd rest dirs t rs hg hw
            exact ⟨wd, wd_of_descend fs wd hwd hdir, Or.inr ⟨names, t, hp, hd⟩⟩

theorem Dir_Open_no_entry (fs : FS) (nm : String) (wd : Node) (E : List (List Char))
    (x : List Char) (ok : Bool) (es : List (String × Node))
    (hE : requestElems nm = E ++ [x]) (hwd : fs.wd = some wd)
    (hres : wd.descendOk (E.map String.mk) = some (.dir ok es))
    (hno : (Node.dir ok es).child (String.mk x) = none) :
    ∃ err, (Dir.mk ".").Open fs nm = .error err := by
  have hg := requestElems_good nm
  rw [hE] at hg
  unfold Dir.Open
  split
  · exact ⟨_, rfl⟩
  · rw [open_fullName]
    have hd : fs.root.descend fs.cwd = some wd := by
      unfold FS.wd at hwd
      cases hd : fs.root.descend fs.cwd with
      | none => simp [hd] at hwd
      | some n =>
        simp only [hd] at hwd
        split at hwd
        · exact hwd
        · cases hwd
    obtain ⟨rest, hen⟩ := enter_of_descend fs.cwd fs.root wd [] hd
    obtain ⟨⟨r, hw⟩, _⟩ := walk_of_descendOk E wd _ rest
      (fun e he => hg e (List.mem_append_left _ he)) (by intro t ht; cases ht) hres
    obtain ⟨err, herr⟩ := stepInto_no_child (Node.dir ok es) r x
      (hg x (List.mem_append_right _ (List.mem_singleton_self _))) hno
    have hwalk : walk (wd :: rest) (E ++ [x]) = .error err := by
      rw [walk_append E _ _ [x] hw]
      simp [walk, herr]
    have hne : ¬ (E ++ [x] = []) := by simp
    rw [hen]
    simp only [hE, if_neg hne]
    unfold openFrom
    rw [follow_error _ _ _ _ _ hwalk]
    exact ⟨_, rfl⟩

theorem Dir_Open_of_resolveOk (fs : FS) (nm : String) (f : Node)
    (hnul : (Char.ofNat 0) ∉ nm.toList) (hnl : ∀ t, f ≠ .link t)
    (h : resolveOk fs nm = some f) : (Dir.mk ".").Open fs nm = .ok f := by
  have hg := requestElems_good nm
  unfold resolveOk FS.wd at h
  cases hd : fs.root.descend fs.cwd with
  | none => simp [hd] at h
  | some wd =>
    simp only [hd] at h
    cases hdir : wd.isDir with
    | false => simp [hdir] at h
    | true =>
      simp only [hdir, if_true] at h
      obtain ⟨rest, hen⟩ := enter_of_descend fs.cwd fs.root wd [] hd
      obtain ⟨⟨r, hw⟩, hok⟩ := walk_of_descendOk _ wd f rest hg hnl h
      unfold Dir.Open
      rw [if_neg hnul, open_fullName, hen]
      by_cases hE : requestElems nm = []
      · rw [hE] at h
        simp only [List.map_nil, Node.descendOk] at h
        split at h
        · simp only [Option.some.injEq] at h
          subst h
          simp [hE, openFrom_dot, hdir, hok]
        · cases h
      · simp [hE, openFrom, follow_done _ _ _ _ _ hw, hok]

/-! ## The request path and the name opened -/

theorem ServeHTTP_eq (fs : FS) (urlPath : String) :
    rootServer.ServeHTTP fs urlPath =
      serveFile fs (rooted urlPath) ⟨"."⟩ (path.Clean (rooted urlPath)) true := rfl

theorem requestElems_mk (E : List (List Char)) (h : ∀ e ∈ E, Good e) :
    requestElems (String.mk ('/' :: joinSlash E)) = E := by
  have h0 : (String.mk ('/' :: joinSlash E)).toList = '/' :: joinSlash E := rfl
  unfold requestElems
  rw [h0]
  by_cases hE : E = []
  · subst hE
    decide
  · have hs := splitSlash_joinSlash E hE (fun e he => (h e he).2.2.2)
    simp [splitSlash, hs, cleanElems, cleanElems_id true E [] h]

theorem rooted_toList (urlPath : String) :
    ∃ q, (rooted urlPath).toList = '/' :: q ∧
      cleanElems true (splitSlash ('/' :: q)) [] = requestElems urlPath := by
  unfold rooted
  split
  · rename_i h
    cases hq : urlPath.toList with
    | nil => rw [hq] at h; simp at h
    | cons c q =>
      rw [hq] at h
      simp only [List.head?_cons, Option.some.injEq] at h
      subst h
      refine ⟨q, rfl, ?_⟩
      unfold requestElems
      rw [hq]
      simp [splitSlash, cleanElems]
  · exact ⟨urlPath.toList, rfl, rfl⟩

theorem Clean_rooted (urlPath : String) :
    path.Clean (rooted urlPath) = String.mk ('/' :: joinSlash (requestElems urlPath)) := by
  obtain ⟨q, hq, hE⟩ := rooted_toList urlPath
  unfold path.Clean
  rw [hq, cleanChars_rooted, hE]

theorem requestElems_Clean (urlPath : String) :
    requestElems (path.Clean (rooted urlPath)) = requestElems urlPath := by
  rw [Clean_rooted, requestElems_mk _ (requestElems_good urlPath)]

theorem resolveOk_Clean (fs : FS) (urlPath : String) :
    resolveOk fs (path.Clean (rooted urlPath)) = resolveOk fs urlPath := by
  simp [resolveOk, requestElems_Clean]

theorem mem_splitSlash (p : List Char) : ∀ e ∈ splitSlash p, ∀ c ∈ e, c ∈ p := by
  induction p with
  | nil => simp [splitSlash]
  | cons a cs ih =>
    unfold splitSlash
    split
    · intro e he c hc
      rcases List.mem_cons.mp he with h | h
      · subst h; simp at hc
      · exact List.mem_cons_of_mem _ (ih e h c hc)
    · split
      · intro e he c hc
        simp only [List.mem_singleton] at he
        subst he
        simp only [List.mem_singleton] at hc
        simp [hc]
      · rename_i e0 es heq
        rw [heq] at ih
        intro e he c hc
        rcases List.mem_cons.mp he with h | h
        · subst h
          rcases List.mem_cons.mp hc with h1 | h1
          · simp [h1]
          · exact List.mem_cons_of_mem _ (ih e0 (List.mem_cons_self _ _) c h1)
        · exact List.mem_cons_of_mem _ (ih e (List.mem_cons_of_mem _ h) c hc)

theorem mem_cleanElems (r : Bool) (es : List (List Char)) :
    ∀ acc : List (List Char), ∀ x ∈ cleanElems r es acc, x ∈ es ∨ x ∈ acc := by
  induction es with
  | nil => intro acc x hx; simp only [cleanElems, List.mem_reverse] at hx; exact Or.inr hx
  | cons e es ih =>
    intro acc x hx
    have lift : ∀ acc1 : List (List Char), (∀ y ∈ acc1, y = e ∨ y ∈ acc) →
        x ∈ cleanElems r es acc1 → x ∈ e :: es ∨ x ∈ acc := by
      intro acc1 hsub h1
      rcases ih acc1 x h1 with h | h
      · exact Or.inl (List.mem_cons_of_mem _ h)
      · rcases hsub x h with h2 | h2
        · exact Or.inl (by simp [h2])
        · exact Or.inr h2
    unfold cleanElems at hx
    split at hx
    · exact lift acc (fun y hy => Or.inr hy) hx
    · split at hx
      · cases acc with
        | nil =>
          simp only at hx
          split at hx
          · exact lift [] (by simp) hx
          · exact lift [e] (by simp) hx
        | cons a acc1 =>
          simp only at hx
          split at hx
          · refine lift (e :: a :: acc1) ?_ hx
            intro y hy
            rcases List.mem_cons.mp hy with h | h
            · exact Or.inl h
            · exact Or.inr h
          · exact lift acc1 (fun y hy => Or.inr (List.mem_cons_of_mem _ hy)) hx
      · refine lift (e :: acc) ?_ hx
        intro y hy
        rcases List.mem_cons.mp hy with h | h
        · exact Or.inl h
        · exact Or.inr h

theorem mem_joinSlash (E : List (List Char)) :
    ∀ c ∈ joinSlash E, c = '/' ∨ ∃ e ∈ E, c ∈ e := by
  induction E with
  | nil => simp [joinSlash]
  | cons e es ih =>
    intro c hc
    cases es with
    | nil => exact Or.inr ⟨e, by simp, by simpa [joinSlash] using hc⟩
    | cons e1 es1 =>
      simp only [joinSlash, List.mem_append, List.mem_cons] at hc
      rcases hc with h | h | h
      · exact Or.inr ⟨e, by simp, h⟩
      · exact Or.inl h
      · rcases ih c h with h1 | ⟨x, hx, hcx⟩
        · exact Or.inl h1
        · exact Or.inr ⟨x, List.mem_cons_of_mem _ hx, hcx⟩

theorem mem_requestElems (urlPath : String) :
    ∀ e ∈ requestElems urlPath, ∀ c ∈ e, c ∈ urlPath.toList := by
  intro e he c hc
  rcases mem_cleanElems true _ [] e he with h | h
  · have := mem_splitSlash _ e h c hc
    rcases List.mem_cons.mp this with h1 | h1
    · subst h1
      exact absurd hc (requestElems_good urlPath e he).2.2.2
    · exact h1
  · simp at h

theorem nul_Clean (urlPath : String) (h : (Char.ofNat 0) ∉ urlPath.toList) :
    (Char.ofNat 0) ∉ (path.Clean (rooted urlPath)).toList := by
  rw [Clean_rooted]
  intro hc
  have hc1 : Char.ofNat 0 ∈ '/' :: joinSlash (requestElems urlPath) := hc
  rcases List.mem_cons.mp hc1 with h1 | h1
  · exact absurd h1 (by decide)
  · rcases mem_joinSlash _ _ h1 with h2 | ⟨e, he, hce⟩
    · exact absurd h2 (by decide)
    · exact h (mem_requestElems urlPath e he _ hce)

theorem getLast_joinSlash (E : List (List Char)) (hne : E ≠ []) (h : ∀ e ∈ E, Good e) :
    (joinSlash E).getLast? ≠ some '/' := by
  induction E with
  | nil => exact absurd rfl hne
  | cons e es ih =>
    have he := h e (List.mem_cons_self _ _)
    cases es with
    | nil =>
      simp only [joinSlash]
      intro hl
      exact he.2.2.2 (List.mem_of_getLast?_eq_some hl)
    | cons e1 es1 =>
      have h1 := ih (by simp) (fun x hx => h x (List.mem_cons_of_mem _ hx))
      have hj := joinSlash_ne_nil (e1 :: es1) (by simp)
        (fun x hx => h x (List.mem_cons_of_mem _ hx))
      obtain ⟨c, cs, hcs⟩ := List.exists_cons_of_ne_nil hj
      simp only [joinSlash] at h1 hcs ⊢
      rw [List.getLast?_append_of_ne_nil _ (by simp), hcs, List.getLast?_cons_cons, ← hcs]
      exact h1

theorem joinSlash_append (E : List (List Char)) (x : List Char) (hne : E ≠ []) :
    joinSlash E ++ '/' :: x = joinSlash (E ++ [x]) := by
  induction E with
  | nil => exact absurd rfl hne
  | cons e es ih =>
    cases es with
    | nil => simp [joinSlash]
    | cons e1 es1 =>
      have h1 := ih (by simp)
      simp only [joinSlash, List.cons_append, List.append_assoc] at h1 ⊢
      rw [h1]
      rfl

theorem endsInSlash_Clean (E : List (List Char)) (hg : ∀ e ∈ E, Good e) (hne : E ≠ []) :
    endsInSlash ('/' :: joinSlash E) = false := by
  obtain ⟨c, cs, hcs⟩ := List.exists_cons_of_ne_nil (joinSlash_ne_nil E hne hg)
  have h1 := getLast_joinSlash E hne hg
  unfold endsInSlash
  rw [hcs, List.getLast?_cons_cons, ← hcs]
  simpa using h1

theorem index_name (E : List (List Char)) (hg : ∀ e ∈ E, Good e) :
    String.mk
        ((if endsInSlash (String.mk ('/' :: joinSlash E)).toList
          then (String.mk ('/' :: joinSlash E)).toList.dropLast
          else (String.mk ('/' :: joinSlash E)).toList) ++ "/index.html".toList) =
      String.mk ('/' :: joinSlash (E ++ ["index.html".toList])) := by
  by_cases hE : E = []
  · subst hE
    decide
  · have h0 : (String.mk ('/' :: joinSlash E)).toList = '/' :: joinSlash E := rfl
    rw [h0, endsInSlash_Clean E hg hE]
    simp only [Bool.false_eq_true, if_false]
    congr 1
    exact congrArg (List.cons '/') (joinSlash_append E "index.html".toList hE)

theorem good_index : Good "index.html".toList := by
  unfold Good
  decide

theorem serveFile_cases (fs : FS) (url : String) (root : Dir) (name : String)
    (redirect : Bool) :
    (∃ loc, serveFile fs url root name redirect = localRedirect loc) ∨
    (∃ err, serveFile fs url root name redirect = serveError err) ∨
    serveFile fs url root name redirect =
      ⟨500, none, .text "http: attempting to traverse a non-directory"⟩ ∨
    ∃ nm f,
      (nm = name ∨
       nm = String.mk ((if endsInSlash name.toList then name.toList.dropLast
                         else name.toList) ++ "/index.html".toList)) ∧
      root.Open fs nm = .ok f ∧
      (serveFile fs url root name redirect = dirList f ∨
       serveFile fs url root name redirect = serveContent f) := by
  unfold serveFile
  split
  · exact Or.inl ⟨_, rfl⟩
  · split
    · exact Or.inr (Or.inl ⟨_, rfl⟩)
    · rename_i f hf
      split
      · exact Or.inl ⟨_, rfl⟩
      · split
        · split
          · exact Or.inr (Or.inr (Or.inl rfl))
          · exact Or.inl ⟨_, rfl⟩
        · split
          · split
            · exact Or.inl ⟨_, rfl⟩
            · simp only
              split
              · rename_i ff hff
                split
                · exact Or.inr (Or.inr (Or.inr ⟨_, ff, Or.inr rfl, hff, Or.inl rfl⟩))
                · exact Or.inr (Or.inr (Or.inr ⟨_, ff, Or.inr rfl, hff, Or.inr rfl⟩))
              · exact Or.inr (Or.inr (Or.inr ⟨_, f, Or.inl rfl, hf, Or.inl rfl⟩))
          · exact Or.inr (Or.inr (Or.inr ⟨_, f, Or.inl rfl, hf, Or.inr rfl⟩))

/-! ## Requests -/

/-- C8, as stated, fails: `/index.html` names an existing regular file of the working
directory, and the file server answers 301 with location `./`, not 200 with the
file's bytes. -/
theorem index_file_redirected :
    resolve sampleFS "/index.html" = some (.file true "<h1>home</h1>") ∧
    rootServer.ServeHTTP sampleFS "/index.html" = ⟨301, some "./", .empty⟩ :=
  ⟨rfl, by decide⟩

/-- C8, amended: for every request (a `GET` without conditional and range headers)
whose path begins with a slash, ends neither in a slash nor in `/index.html`, holds no
NUL byte and names, under the working directory, a regular file the process may open,
the response has status 200 and the file's bytes as body. -/
theorem regular_file_served (fs : FS) (urlPath : String) (ok : Bool) (c : String)
    (hroot : urlPath.toList.head? = some '/')
    (hres : resolveOk fs urlPath = some (.file ok c))
    (hslash : endsInSlash urlPath.toList = false)
    (hidx : "/index.html".toList.isSuffixOf urlPath.toList = false)
    (hnul : (Char.ofNat 0) ∉ urlPath.toList) :
    rootServer.ServeHTTP fs urlPath = ⟨200, none, .bytes c⟩ := by
  have hr : rooted urlPath = urlPath := by unfold rooted; rw [if_pos hroot]
  have hopen := Dir_Open_of_resolveOk fs (path.Clean (rooted urlPath)) (.file ok c)
    (nul_Clean urlPath hnul) (by intro t ht; cases ht)
    (by rw [resolveOk_Clean]; exact hres)
  rw [ServeHTTP_eq]
  unfold serveFile
  rw [hr] at hopen ⊢
  rw [if_neg (by rw [hidx]; exact Bool.false_ne_true), hopen]
  have hslash1 : endsInSlash urlPath.data = false := hslash
  simp [Node.isDir, hslash1, serveContent]

theorem regular_file_served_witness :
    resolveOk sampleFS "/hello.txt" = some (.file true "hi") ∧
    rootServer.ServeHTTP sampleFS "/hello.txt" = ⟨200, none, .bytes "hi"⟩ :=
  ⟨rfl, regular_file_served sampleFS "/hello.txt" true "hi" rfl rfl rfl rfl (by decide)⟩

/-- C9, as stated, fails: `/sub` names an existing directory of the working directory
and is answered 301 with location `sub/`; `/` names the working directory, which holds
`index.html`, and is answered with the bytes of that file, not with a listing. -/
theorem directory_not_always_listed :
    resolve sampleFS "/sub" = some (.dir true [("b.txt", .file true "b")]) ∧
    rootServer.ServeHTTP sampleFS "/sub" = ⟨301, some "sub/", .empty⟩ ∧
    (sampleFS.wd.bind (fun wd => some wd.isDir)) = some true ∧
    resolve sampleFS "/" = sampleFS.wd ∧
    rootServer.ServeHTTP sampleFS "/" = ⟨200, none, .bytes "<h1>home</h1>"⟩ :=
  ⟨rfl, by decide, rfl, rfl, by decide⟩

theorem not_index_of_slash (l : List Char) (h : endsInSlash l = true) :
    "/index.html".toList.isSuffixOf l = false := by
  cases hs : "/index.html".toList.isSuffixOf l with
  | false => rfl
  | true =>
    obtain ⟨t, ht⟩ := List.isSuffixOf_iff_suffix.mp hs
    unfold endsInSlash at h
    rw [← ht] at h
    simp at h

/-- C9, amended: for every request (a `GET` without conditional and range headers)
whose path begins and ends with a slash, holds no NUL byte and names, under the
working directory, a directory the process may open and that has no entry
`index.html`, the response has status 200 and its body is the index of that
directory: it links every entry, a directory by its name followed by a slash. -/
theorem directory_listed (fs : FS) (urlPath : String) (ok : Bool)
    (es : List (String × Node))
    (hroot : urlPath.toList.head? = some '/')
    (hres : resolveOk fs urlPath = some (.dir ok es))
    (hslash : endsInSlash urlPath.toList = true)
    (hidx : ∀ e ∈ es, e.1 ≠ "index.html")
    (hnul : (Char.ofNat 0) ∉ urlPath.toList) :
    ∃ names, rootServer.ServeHTTP fs urlPath = ⟨200, none, .listing names⟩ ∧
      names.length = es.length ∧
      ∀ e ∈ es, (if e.2.isDir then e.1 ++ "/" else e.1) ∈ names := by
  have hg := requestElems_good urlPath
  have hr : rooted urlPath = urlPath := by unfold rooted; rw [if_pos hroot]
  have hopen := Dir_Open_of_resolveOk fs (path.Clean (rooted urlPath)) (.dir ok es)
    (nul_Clean urlPath hnul) (by intro t ht; cases ht)
    (by rw [resolveOk_Clean]; exact hres)
  have hgi : ∀ e ∈ requestElems urlPath ++ ["index.html".toList], Good e := by
    intro e he
    rcases List.mem_append.mp he with h | h
    · exact hg e h
    · simp only [List.mem_singleton] at h
      subst h
      exact good_index
  have hno : ∀ ff, (Dir.mk ".").Open fs
      (String.mk ('/' :: joinSlash (requestElems urlPath ++ ["index.html".toList]))) ≠
        .ok ff := by
    intro ff hff
    unfold resolveOk at hres
    cases hwd : fs.wd with
    | none => simp [hwd] at hres
    | some wd =>
      simp only [hwd] at hres
      have hchild : (Node.dir ok es).child (String.mk "index.html".toList) = none := by
        simp only [Node.child, Option.map_eq_none']
        cases hf : es.find? (fun e => decide (e.1 = String.mk "index.html".toList)) with
        | none => rfl
        | some e =>
          have hmem := List.mem_of_find?_eq_some hf
          have hname := List.find?_some hf
          exact absurd (by simpa using hname) (hidx e hmem)
      obtain ⟨err, herr⟩ := Dir_Open_no_entry fs _ wd (requestElems urlPath)
        "index.html".toList ok es (requestElems_mk _ hgi) hwd hres hchild
      rw [herr] at hff
      cases hff
  rw [ServeHTTP_eq, Clean_rooted] at *
  rw [hr] at *
  unfold serveFile
  rw [if_neg (by rw [not_index_of_slash _ hslash]; exact Bool.false_ne_true), hopen]
  have hslash1 : endsInSlash urlPath.data = true := hslash
  simp only [Node.isDir, index_name _ hg]
  cases hi : (Dir.mk ".").Open fs
      (String.mk ('/' :: joinSlash (requestElems urlPath ++ ["index.html".toList]))) with
  | ok ff => exact absurd hi (hno ff)
  | error err =>
    refine ⟨(es.insertionSort (fun a b => a.1.toList ≤ b.1.toList)).map
      (fun e => if e.2.isDir then e.1 ++ "/" else e.1), ?_, ?_, ?_⟩
    · simp [hslash1, dirList]
    · simp [List.length_insertionSort]
    · intro e he
      exact List.mem_map.mpr ⟨e, (List.perm_insertionSort _ es).mem_iff.mpr he, rfl⟩

theorem directory_listed_witness :
    resolveOk listingFS "/" =
      some (.dir true [("sub", .dir true []), ("a.txt", .file true "a")]) ∧
    ∃ names, rootServer.ServeHTTP listingFS "/" = ⟨200, none, .listing names⟩ ∧
      names.length = 2 ∧
      ∀ e ∈ [("sub", Node.dir true []), ("a.txt", Node.file true "a")],
        (if e.2.isDir then e.1 ++ "/" else e.1) ∈ names :=
  ⟨rfl, directory_listed listingFS "/" true _ rfl rfl rfl (by decide) (by decide)⟩

/-! ## The multiplexer -/

theorem append_slash_of_prefix (a b : List Char) (hp : a.isPrefixOf b = true)
    (hl : b.length = a.length + 1) (hs : endsInSlash b = true) : b = a ++ ['/'] := by
  obtain ⟨t, ht⟩ := List.isPrefixOf_iff_prefix.mp hp
  subst ht
  simp only [List.length_append] at hl
  have h1 : t.length = 1 := by omega
  obtain ⟨c, hc⟩ := List.length_eq_one.mp h1
  subst hc
  have hs1 : (a ++ [c]).getLast? = some '/' := by simpa [endsInSlash] using hs
  rw [List.getLast?_append_of_ne_nil _ (by simp)] at hs1
  simp only [List.getLast?_singleton, Option.some.injEq] at hs1
  rw [hs1]

theorem cleanPath_cases (p : String) :
    ∃ E : List (List Char), (∀ e ∈ E, Good e) ∧
      ((cleanPath p).toList = '/' :: joinSlash E ∨
       (E ≠ [] ∧ (cleanPath p).toList = '/' :: (joinSlash E ++ ['/']))) := by
  by_cases hp : p = ""
  · exact ⟨[], by simp, Or.inl (by subst hp; rfl)⟩
  · refine ⟨requestElems p, requestElems_good p, ?_⟩
    have hnp : (path.Clean (rooted p)).toList = '/' :: joinSlash (requestElems p) := by
      rw [Clean_rooted]
      rfl
    have hcp : cleanPath p =
        if endsInSlash (rooted p).toList ∧ path.Clean (rooted p) ≠ "/" then
          if (rooted p).toList.length = (path.Clean (rooted p)).toList.length + 1 ∧
              (path.Clean (rooted p)).toList.isPrefixOf (rooted p).toList then rooted p
          else String.mk ((path.Clean (rooted p)).toList ++ ['/'])
        else path.Clean (rooted p) := by
      simp only [cleanPath, hp, if_false]
      rfl
    rw [hcp]
    split
    · rename_i h
      have hE : requestElems p ≠ [] := by
        intro hE
        apply h.2
        rw [Clean_rooted, hE]
        rfl
      right
      refine ⟨hE, ?_⟩
      split
      · rename_i h2
        have := append_slash_of_prefix _ _ h2.2 h2.1 h.1
        rw [this, hnp]
        rfl
      · show (path.Clean (rooted p)).toList ++ ['/'] = _
        rw [hnp]
        rfl
    · exact Or.inl hnp

theorem cleanPath_head (p : String) : (cleanPath p).toList.head? = some '/' := by
  obtain ⟨E, _, h | ⟨_, h⟩⟩ := cleanPath_cases p <;> rw [h] <;> rfl

theorem cleanPath_elems (p : String) :
    ∀ e ∈ splitSlash (cleanPath p).toList, e = [] ∨ Good e := by
  obtain ⟨E, hg, h | ⟨hE, h⟩⟩ := cleanPath_cases p
  · rw [h]
    by_cases hE : E = []
    · subst hE
      intro e he
      simp [splitSlash, joinSlash] at he
      exact Or.inl he
    · intro e he
      simp only [splitSlash, if_true, List.mem_cons,
        splitSlash_joinSlash E hE (fun x hx => (hg x hx).2.2.2)] at he
      rcases he with h1 | h1
      · exact Or.inl h1
      · exact Or.inr (hg e h1)
  · rw [h, joinSlash_append E [] hE]
    intro e he
    have hsf : ∀ x ∈ E ++ [[]], '/' ∉ x := by
      intro x hx
      rcases List.mem_append.mp hx with h1 | h1
      · exact (hg x h1).2.2.2
      · simp only [List.mem_singleton] at h1
        subst h1
        simp
    simp only [splitSlash, if_true, List.mem_cons,
      splitSlash_joinSlash (E ++ [[]]) (by simp) hsf, List.mem_append,
      List.mem_singleton] at he
    rcases he with h1 | h1 | h1
    · exact Or.inl h1
    · exact Or.inr (hg e h1)
    · rcases h1 with h2 | h2
      · exact Or.inl h2
      · simp at h2

theorem cleanPath_ne_of_dotdot (p : String) (h : ['.', '.'] ∈ splitSlash p.toList) :
    cleanPath p ≠ p := by
  intro heq
  rw [← heq] at h
  rcases cleanPath_elems p _ h with h1 | h1
  · cases h1
  · exact h1.2.2.1 rfl

theorem shouldRedirect_served (path : String) :
    ServeMux.shouldRedirect [("/", rootServer)] path = false := by
  unfold ServeMux.shouldRedirect
  split
  · rfl
  · split
    · rfl
    · rename_i hne
      split
      · rename_i h
        simp only [List.any_cons, List.any_nil, Bool.or_false, decide_eq_true_eq] at h
        have h1 : (['/'] : List Char) = path.toList ++ ['/'] := h
        have h2 := congrArg List.length h1
        simp only [List.length_singleton, List.length_append] at h2
        exact absurd (List.length_eq_zero.mp (by omega)) hne
      · rfl

theorem matchPath_served (path : String) (hp : path.toList.head? = some '/') :
    ServeMux.matchPath [("/", rootServer)] path = some rootServer := by
  have hpre : "/".toList.isPrefixOf path.toList = true := by
    cases hq : path.toList with
    | nil => rw [hq] at hp; simp at hp
    | cons x xs =>
      rw [hq] at hp
      simp only [List.head?_cons, Option.some.injEq] at hp
      subst hp
      simp [List.isPrefixOf]
  by_cases he : "/" = path
  · simp [ServeMux.matchPath, List.find?, he]
  · simpa [ServeMux.matchPath, List.find?, he] using hpre

theorem dispatch_served (path : String) :
    (cleanPath path = path → served.dispatch path = rootServer) ∧
    (cleanPath path ≠ path → served.dispatch path = .redirect (cleanPath path)) := by
  have hs := shouldRedirect_served (cleanPath path)
  constructor
  · intro h
    have hp : path.toList.head? = some '/' := by
      have := cleanPath_head path
      rwa [h] at this
    rw [h] at hs
    show ServeMux.Handler [("/", rootServer)] path = rootServer
    unfold ServeMux.Handler
    simp only [hs, Bool.false_eq_true, if_false, h, ne_eq, not_true_eq_false,
      matchPath_served path hp]
  · intro h
    show ServeMux.Handler [("/", rootServer)] path = .redirect (cleanPath path)
    unfold ServeMux.Handler
    simp only [hs, Bool.false_eq_true, if_false, ne_eq, h, not_false_eq_true, if_true]

/-- C4, as stated, fails: in a run of `main` the listen call is the one that serves,
and for the request paths `//hello.txt` and `/../../etc/passwd`, which begin with a
slash, the handler that serves the request is not the file server but a redirect
handler of the multiplexer, to `/hello.txt` and to `/etc/passwd`. -/
theorem unclean_path_not_given_to_file_server :
    (run portFree).listens = [served] ∧
    "//hello.txt".toList.head? = some '/' ∧
    served.dispatch "//hello.txt" = .redirect "/hello.txt" ∧
    served.dispatch "//hello.txt" ≠ .fileServer ⟨"."⟩ ∧
    served.dispatch "/../../etc/passwd" = .redirect "/etc/passwd" ∧
    served.dispatch "/../../etc/passwd" ≠ .fileServer ⟨"."⟩ := by
  refine ⟨?_, by decide, by decide, by decide, by decide, by decide⟩
  rw [run_servesForever portFree rfl]
  rfl

/-- C4, amended: in every run, when the listener is started the file server rooted at
`.` is registered on the pattern `/`, the registration precedes the listen call, it
is the only route, and the listen call passes the `nil` handler, so that the default
multiplexer holding that route serves.  For every request path in canonical form (one
that `cleanPath` leaves unchanged) the handler that serves the request is that file
server; a request whose path is not in canonical form is answered by the multiplexer
with a redirect to the canonical path. -/
theorem catch_all_file_server (env : Env) :
    (run env).listens = [⟨":8080", none, [("/", Handler.fileServer ⟨"."⟩)]⟩] ∧
    (run env).mux = [("/", Handler.fileServer ⟨"."⟩)] ∧
    (∃ post, (run env).trace =
      Event.handle "/" (Handler.fileServer ⟨"."⟩) :: Event.logLine announcement ::
        Event.listen ":8080" none :: post) ∧
    ∀ c ∈ (run env).listens, ∀ path : String,
      (cleanPath path = path → c.dispatch path = Handler.fileServer ⟨"."⟩) ∧
      (cleanPath path ≠ path → c.dispatch path = Handler.redirect (cleanPath path)) := by
  have hd : ∀ c ∈ [(⟨":8080", none, [("/", rootServer)]⟩ : ListenCall)], ∀ path : String,
      (cleanPath path = path → c.dispatch path = Handler.fileServer ⟨"."⟩) ∧
      (cleanPath path ≠ path → c.dispatch path = Handler.redirect (cleanPath path)) := by
    intro c hc path
    simp only [List.mem_singleton] at hc
    subst hc
    exact dispatch_served path
  rcases run_cases env with ⟨err, h⟩ | h <;> rw [h] <;>
    exact ⟨rfl, rfl, ⟨_, rfl⟩, hd⟩

theorem catch_all_file_server_witness :
    cleanPath "/hello.txt" = "/hello.txt" ∧
    ∀ c ∈ (run portFree).listens,
      c.dispatch "/hello.txt" = Handler.fileServer ⟨"."⟩ :=
  ⟨by decide, fun c hc =>
    ((catch_all_file_server portFree).2.2.2 c hc "/hello.txt").1 (by decide)⟩

/-- C7, as stated, fails.  The request path `/../../etc/passwd` tries to escape the
root and the server answers it 301 with location `/etc/passwd`, not 404 or 403.  And
the path `/link`, which names a symbolic link of the working directory to
`/etc/passwd`, is answered 200 with the bytes of that file, which lies outside the
working directory `/srv`. -/
theorem escape_redirected_and_link_followed :
    ['.', '.'] ∈ splitSlash "/../../etc/passwd".toList ∧
    served.respond linkedFS "/../../etc/passwd" =
      ⟨301, some "/etc/passwd", .anchor "/etc/passwd"⟩ ∧
    (served.respond linkedFS "/../../etc/passwd").status ≠ 404 ∧
    (served.respond linkedFS "/../../etc/passwd").status ≠ 403 ∧
    linkedFS.cwd = ["srv"] ∧
    linkedFS.root.descend ["etc", "passwd"] = some (.file true "root:x:0:0") ∧
    resolve linkedFS "/link" = some (.link "/etc/passwd") ∧
    (Dir.mk ".").fullName (path.Clean "/link") = "link" ∧
    served.respond linkedFS "/link" = ⟨200, none, .bytes "root:x:0:0"⟩ :=
  ⟨by decide, by decide, by decide, by decide, rfl, rfl, rfl, by decide, by decide⟩

theorem opened_inside (fs : FS) (urlPath nm : String) (f : Node)
    (hnm : nm = path.Clean (rooted urlPath) ∨
      nm = String.mk ((if endsInSlash (path.Clean (rooted urlPath)).toList
                        then (path.Clean (rooted urlPath)).toList.dropLast
                        else (path.Clean (rooted urlPath)).toList) ++ "/index.html".toList))
    (h : (Dir.mk ".").Open fs nm = .ok f) :
    ∃ wd, fs.wd = some wd ∧
      ((∃ names, wd.descend names = some f) ∨
       ∃ names t, names <+: (requestElems urlPath).map String.mk ++ ["index.html"] ∧
         wd.descend names = some (.link t)) := by
  have hg := requestElems_good urlPath
  obtain ⟨_, wd, hwd, hin⟩ := Dir_Open_inside fs nm f h
  refine ⟨wd, hwd, ?_⟩
  rcases hin with hin | ⟨names, t, hp, hd⟩
  · exact Or.inl ⟨_, hin⟩
  · refine Or.inr ⟨names, t, ?_, hd⟩
    rcases hnm with hnm | hnm
    · rw [hnm, requestElems_Clean] at hp
      exact hp.trans (List.prefix_append _ _)
    · have hgi : ∀ e ∈ requestElems urlPath ++ ["index.html".toList], Good e := by
        intro e he
        rcases List.mem_append.mp he with h1 | h1
        · exact hg e h1
        · simp only [List.mem_singleton] at h1
          subst h1
          exact good_index
      rw [hnm, Clean_rooted, index_name _ hg, requestElems_mk _ hgi, List.map_append] at hp
      exact hp

theorem served_respond (fs : FS) (urlPath : String) :
    served.respond fs urlPath = rootServer.ServeHTTP fs urlPath ∨
    (cleanPath urlPath ≠ urlPath ∧
     served.respond fs urlPath =
      ⟨301, some (cleanPath urlPath), .anchor (cleanPath urlPath)⟩) := by
  by_cases h : cleanPath urlPath = urlPath
  · left
    unfold ListenCall.respond
    rw [(dispatch_served urlPath).1 h]
  · right
    refine ⟨h, ?_⟩
    unfold ListenCall.respond
    rw [(dispatch_served urlPath).2 h]
    rfl

/-- C7, amended: for every request path the name the file server opens is the request
path cleaned as a rooted path (its `..` elements resolved, those at the root dropped,
not rejected) and taken relative to the working directory; no element of it is `..`,
so as a name it never lies outside the working directory.  A request whose path has
a `..` element is answered by the server with a 301 redirect to the canonical path,
which has no `..` element.  Bytes served, by the server or by the file server called
on the path itself, are those of a file reached from the working directory by
descending, unless a leading part of the name opened (the cleaned path, or its
`index.html`) is a symbolic link of the working directory. -/
theorem file_server_confined (fs : FS) (urlPath : String) :
    (Dir.mk ".").fullName (path.Clean (rooted urlPath)) =
      String.mk (if requestElems urlPath = [] then ['.']
                 else joinSlash (requestElems urlPath)) ∧
    (∀ e ∈ requestElems urlPath, e ≠ ['.', '.'] ∧ e ≠ ['.'] ∧ e ≠ [] ∧ '/' ∉ e) ∧
    (['.', '.'] ∈ splitSlash urlPath.toList →
      served.respond fs urlPath =
        ⟨301, some (cleanPath urlPath), .anchor (cleanPath urlPath)⟩ ∧
      ['.', '.'] ∉ splitSlash (cleanPath urlPath).toList) ∧
    (∀ r, r = served.respond fs urlPath ∨ r = rootServer.ServeHTTP fs urlPath →
      ∀ c, r.body = .bytes c →
        ∃ wd, fs.wd = some wd ∧
          ((∃ names ok, wd.descend names = some (.file ok c)) ∨
           ∃ names t, names <+: (requestElems urlPath).map String.mk ++ ["index.html"] ∧
             wd.descend names = some (.link t))) := by
  refine ⟨?_, ?_, ?_, ?_⟩
  · rw [fullName_eq, requestElems_Clean]
  · intro e he
    have hg := requestElems_good urlPath e he
    exact ⟨hg.2.2.1, hg.2.1, hg.1, hg.2.2.2⟩
  · intro hdd
    constructor
    · have hne := cleanPath_ne_of_dotdot urlPath hdd
      unfold ListenCall.respond
      rw [(dispatch_served urlPath).2 hne]
      rfl
    · intro h
      rcases cleanPath_elems urlPath _ h with h1 | h1
      · cases h1
      · exact h1.2.2.1 rfl
  · intro r hr c hc
    have hh : (rootServer.ServeHTTP fs urlPath).body = .bytes c := by
      rcases hr with hr | hr
      · rcases served_respond fs urlPath with h | ⟨_, h⟩
        · rw [hr, h] at hc; exact hc
        · rw [hr, h] at hc; cases hc
      · rw [hr] at hc; exact hc
    rw [ServeHTTP_eq] at hh
    rcases serveFile_cases fs (rooted urlPath) ⟨"."⟩ (path.Clean (rooted urlPath)) true with
      ⟨loc, h⟩ | ⟨err, h⟩ | h | ⟨nm, f, hnm, hf, h | h⟩
    · rw [h] at hh; simp [localRedirect] at hh
    · rw [h] at hh; cases err <;> simp [serveError] at hh
    · rw [h] at hh; simp at hh
    · rw [h] at hh
      cases f <;> simp [dirList] at hh
    · rw [h] at hh
      cases f with
      | dir ok es => simp [serveContent] at hh
      | link t => simp [serveContent] at hh
      | file ok content =>
        simp only [serveContent, Body.bytes.injEq] at hh
        subst hh
        obtain ⟨wd, hwd, hin⟩ := opened_inside fs urlPath nm _ hnm hf
        refine ⟨wd, hwd, ?_⟩
        rcases hin with ⟨names, hd⟩ | hl
        · exact Or.inl ⟨names, ok, hd⟩
        · exact Or.inr hl

theorem file_server_confined_witness :
    ['.', '.'] ∈ splitSlash "/../../etc/passwd".toList ∧
    served.respond sampleFS "/../../etc/passwd" =
      ⟨301, some (cleanPath "/../../etc/passwd"), .anchor (cleanPath "/../../etc/passwd")⟩ :=
  ⟨by decide, ((file_server_confined sampleFS "/../../etc/passwd").2.2.1 (by decide)).1⟩

end EllipsisLM

